import Mathlib

/-!
Verification of the geometric core of the CantileverPhaseshifterGDS repository.

The embedding below translates the pure geometric computations of
`src/piezo_pic/features/release.py`, `src/piezo_pic/utils/geometry.py` and
`src/piezo_pic/geometry/serpentine.py` into Lean.  Floating point numbers are
modelled by exact rationals (`ℚ`); the float literals of the source
(`1e-3`, `1e-9`, `1e-12`, `1e-18`, `0.5`, ...) become the corresponding exact
rationals.  NumPy arrays become lists, and the in-place mutation of a layout
component (appending hole references) is modelled by returning the list of
hole centers that the source would append.
-/

namespace PiezoPic

/-- Module constant `_DEDUP_TOL_UM = 1e-3` from `features/release.py`. -/
def dedupTolUm : ℚ := 1 / 1000

/-- Module constant `_NUM_EPS = 1e-9` from `features/release.py`. -/
def numEps : ℚ := 1 / 1000000000

/-- Module constant `_DIV_EPS = 1e-12` from `features/release.py`. -/
def divEps : ℚ := 1 / 1000000000000

/-- The `np.sort` call inside `_dedupe_sorted` (ascending sort of a 1-D
array), modelled by insertion sort on rationals. -/
def npSort (vals : List ℚ) : List ℚ :=
  List.insertionSort (fun a b => a ≤ b) vals

/-- The keep-loop of `_dedupe_sorted` (`features/release.py`, lines 25-28):
walk the sorted values, keeping a value when it differs from the last kept
value by more than `tol`.  `last` is `keep[-1]`. -/
def dedupeKeep (tol : ℚ) (last : ℚ) : List ℚ → List ℚ
  | [] => []
  | v :: rest =>
      if tol < |v - last| then v :: dedupeKeep tol v rest
      else dedupeKeep tol last rest

/-- `_dedupe_sorted(vals, tol)` from `features/release.py` lines 20-29:
sorted unique values with a tolerance.  Empty input is returned unchanged;
otherwise the values are sorted and the first is always kept. -/
def _dedupe_sorted (vals : List ℚ) (tol : ℚ) : List ℚ :=
  match npSort vals with
  | [] => []
  | v :: rest => v :: dedupeKeep tol v rest

/-- `np.linspace(a, b, num)` (endpoint included): `num` evenly spaced samples
from `a` to `b`.  For `num ≥ 2` sample `i` is `a + (b - a) * i / (num - 1)`;
`num = 1` gives `[a]` and `num = 0` gives `[]`, as in NumPy. -/
def linspaceQ (a b : ℚ) (num : ℕ) : List ℚ :=
  if num = 0 then []
  else if num = 1 then [a]
  else (List.range num).map
    (fun i : ℕ => a + (b - a) * (i : ℚ) / ((num : ℚ) - 1))

/-- `np.arange(start, stop, step)` for `step > 0`: values
`start + i * step` for `0 ≤ i < ⌈(stop - start) / step⌉`. -/
def arangeQ (start stop step : ℚ) : List ℚ :=
  (List.range (⌈(stop - start) / step⌉.toNat)).map
    (fun i : ℕ => start + (i : ℚ) * step)

/-- Row Y positions for "Option A: explicit rows" of
`add_release_rows_at_seams_final_frame` (`features/release.py` lines
171-178).  `n` is `holes.holes_per_col`; `Nrows = max(0, int(n))` is
`n.toNat`.  `Nrows = 0` gives no rows, `Nrows = 1` the vertical center, and
otherwise the `Nrows + 2`-point linspace with both endpoints dropped. -/
def rowsFixed (y0Inner y1Inner : ℚ) (n : ℤ) : List ℚ :=
  if n.toNat = 0 then []
  else if n.toNat = 1 then [(y0Inner + y1Inner) * (1 / 2)]
  else ((linspaceQ y0Inner y1Inner (n.toNat + 2)).drop 1).dropLast

/-- Row Y positions for "Option B: pitch" of
`add_release_rows_at_seams_final_frame` (`features/release.py` lines
182-188): start half a pitch above the bottom inner edge, stop half a pitch
below the top inner edge; if the stop is below the start fall back to a
single centered row, else `np.arange(y_start, y_stop + _NUM_EPS, pitch)`. -/
def rowsPitch (y0Inner y1Inner pitch : ℚ) : List ℚ :=
  let yStart := y0Inner + (1 / 2) * pitch
  let yStop := y1Inner - (1 / 2) * pitch
  if yStop < yStart then [(y0Inner + y1Inner) * (1 / 2)]
  else arangeQ yStart (yStop + numEps) pitch

/-- `HoleParams` from `tech/params.py` (the fields read by the release-hole
placer).  `hole_pitch_y_um` and `holes_per_col` are optional. -/
structure HoleParams where
  hole_diam_um : ℚ
  hole_pitch_um : ℚ
  avoid_clearance_um : ℚ
  hole_pitch_y_um : Option ℚ
  holes_per_col : Option ℤ
deriving DecidableEq, Repr

/-- `WaveguideWidths` from `tech/params.py` (only `width_sin_um` is read by
the placer). -/
structure WaveguideWidths where
  width_sin_um : ℚ
deriving DecidableEq, Repr

/-- The Python expression
`float((getattr(holes, "hole_pitch_y_um", None) or holes.hole_pitch_um) or 0.0)`
(`features/release.py` line 181).  Python `or` returns its left operand when
it is truthy (a float is falsy exactly when it is `0.0`, `None` is falsy), so
the result is `hole_pitch_y_um` when that is present and nonzero, else
`hole_pitch_um` when that is nonzero, else `0`. -/
def effectivePitchY (holes : HoleParams) : ℚ :=
  match holes.hole_pitch_y_um with
  | some v => if v ≠ 0 then v else holes.hole_pitch_um
  | none => holes.hole_pitch_um

/-- The row-Y dispatch of `add_release_rows_at_seams_final_frame`
(`features/release.py` lines 170-190): explicit rows when `holes_per_col`
is given, otherwise pitch-based rows when the effective pitch is positive,
otherwise a single centered row. -/
def rowYs (holes : HoleParams) (y0Inner y1Inner : ℚ) : List ℚ :=
  match holes.holes_per_col with
  | some n => rowsFixed y0Inner y1Inner n
  | none =>
      let pitchY := effectivePitchY holes
      if 0 < pitchY then rowsPitch y0Inner y1Inner pitchY
      else [(y0Inner + y1Inner) * (1 / 2)]

/-- Squared distance from `(px, py)` to the segment `a -- b`, following
`min_dist_point_polyline` in `utils/geometry.py` lines 98-109: the parameter
`t` of the projection is computed with the source's `1e-18` regularizer added
to the squared segment length, then clipped to `[0, 1]`
(`np.clip(t, 0.0, 1.0) = min(max(t, 0), 1)`). -/
def segDistSq (px py : ℚ) (a b : ℚ × ℚ) : ℚ :=
  let dvx := b.1 - a.1
  let dvy := b.2 - a.2
  let pvx := px - a.1
  let pvy := py - a.2
  let segLen2 := dvx ^ 2 + dvy ^ 2 + 1 / 1000000000000000000
  let t := (pvx * dvx + pvy * dvy) / segLen2
  let tc := min (max t 0) 1
  (a.1 + tc * dvx - px) ^ 2 + (a.2 + tc * dvy - py) ^ 2

/-- The squared value of `min_dist_point_polyline(px, py, poly_xy)`
(`utils/geometry.py` lines 98-109): `d2.min()` over all consecutive vertex
pairs of the polyline.  The source returns `sqrt(d2.min())`; we keep the
exact squared minimum (a rational) and take the real square root only in
statements, which is faithful because `Real.sqrt` is monotone.  The source
would raise on a polyline with fewer than 2 vertices (`min` of an empty
array); the placer never calls it that way, and we return `0` there. -/
def min_dist_sq_point_polyline (px py : ℚ) (poly : List (ℚ × ℚ)) : ℚ :=
  match (poly.zip poly.tail).map (fun ab => segDistSq px py ab.1 ab.2) with
  | [] => 0
  | d :: ds => ds.foldl min d

/-- The vertical-straight mask of `add_release_rows_at_seams_final_frame`
(`features/release.py` lines 104-109): for each consecutive pair of sampled
points, `|dx| / (|dy| + _DIV_EPS) < straight_tol` and `|dy| > _NUM_EPS`. -/
def maskOf (ptsF : List (ℚ × ℚ)) (straightTol : ℚ) : List Bool :=
  (ptsF.zip ptsF.tail).map (fun pq =>
    let dx := pq.2.1 - pq.1.1
    let dy := pq.2.2 - pq.1.2
    decide (|dx| / (|dy| + divEps) < straightTol ∧ numEps < |dy|))

/-- The run-grouping loop of `add_release_rows_at_seams_final_frame`
(`features/release.py` lines 111-123): scan the mask left to right with the
current index `i` and, when inside a run, the index `s` where it started;
a run `(s, j)` is recorded at the first unmasked index `j` after it (or at
the end of the mask), exactly the `(i, j)` pairs the source's while-loop
appends, in order. -/
def runsGo (i : ℕ) (startRun : Option ℕ) : List Bool → List (ℕ × ℕ)
  | [] =>
      match startRun with
      | some s => [(s, i)]
      | none => []
  | b :: rest =>
      match startRun, b with
      | none, false => runsGo (i + 1) none rest
      | none, true => runsGo (i + 1) (some i) rest
      | some s, true => runsGo (i + 1) (some s) rest
      | some s, false => (s, i) :: runsGo (i + 1) none rest

/-- The detected vertical runs of a mask, as `(i, j)` index pairs with
`mask[i..j-1]` all true and maximal. -/
def runsOf (mask : List Bool) : List (ℕ × ℕ) :=
  runsGo 0 none mask

/-- The per-run representative X of `add_release_rows_at_seams_final_frame`
(`features/release.py` lines 128-135): take the vertices `pts_f[i0 : i1+1]`
of the run, soft-trim the two endpoints when more than 2 vertices remain,
skip the run if the trimmed segment is empty, else return the mean X. -/
def runMeanX (ptsF : List (ℚ × ℚ)) (run : ℕ × ℕ) : Option ℚ :=
  let seg := (ptsF.drop run.1).take (run.2 - run.1 + 1)
  let seg2 := if 2 < seg.length then (seg.drop 1).dropLast else seg
  if seg2.length = 0 then none
  else some ((seg2.map Prod.fst).sum / seg2.length)

/-- The list `x_centers` of `add_release_rows_at_seams_final_frame`
(`features/release.py` lines 104-135): one representative X per detected
vertical run. -/
def xCenters (ptsF : List (ℚ × ℚ)) (straightTol : ℚ) : List ℚ :=
  (runsOf (maskOf ptsF straightTol)).filterMap (runMeanX ptsF)

/-- The seam-column construction of `add_release_rows_at_seams_final_frame`
(`features/release.py` lines 161-165): midpoints of adjacent sorted
representative X values, flanked by the two inner edges, clipped to the
inner interval and de-duplicated at tolerance `_DEDUP_TOL_UM`. -/
def seamXs (xCentersSorted : List ℚ) (x0Inner x1Inner : ℚ) : List ℚ :=
  let mids := (xCentersSorted.zip xCentersSorted.tail).map
    (fun ab => (1 / 2) * (ab.1 + ab.2))
  let cand := x0Inner :: mids ++ [x1Inner]
  _dedupe_sorted
    (cand.filter (fun x => decide (x0Inner ≤ x ∧ x ≤ x1Inner))) dedupTolUm

/-- The keep-out threshold of `add_release_rows_at_seams_final_frame`
(`features/release.py` lines 196-197): half the SiN core width plus the hole
radius plus the avoid clearance.  (The source's
`getattr(holes, "avoid_clearance_um", 0.20) or 0.0` maps a `None` or `0.0`
clearance to `0.0`; with a rational field this is the identity.) -/
def keepoutUm (widths : WaveguideWidths) (holes : HoleParams) : ℚ :=
  widths.width_sin_um / 2 + holes.hole_diam_um / 2 + holes.avoid_clearance_um

/-- Intersect the margin-shrunk interval `[lo, hi]` with an optional
clipping window, as in `features/release.py` lines 150-157. -/
def clipInterval (lo hi : ℚ) : Option (ℚ × ℚ) → ℚ × ℚ
  | none => (lo, hi)
  | some r => (max lo r.1, min hi r.2)

/-- `add_release_rows_at_seams_final_frame` from `features/release.py`
lines 32-210, for the call mode in which the sampled centerline `pts_f` is
supplied directly (`pts_final` given; otherwise the source samples the path
first, an external-path operation).  The source mutates `comp` by appending
one circle reference per accepted hole center; we return the list of
accepted hole centers, in placement order.  Every early `return` of the
source becomes an empty result:

* fewer than 2 sampled points (line 101);
* no runs, or fewer than 2 representative X values (lines 124, 136 — a run
  always yields a representative, so both collapse to `x_centers`);
* a non-positive margin-shrunk rectangle (line 146);
* a non-positive rectangle after clipping (line 158);
* no seam columns (line 166) or no rows (line 192).

The keep-out test of lines 205-208 (`dmin < keepout_um` with
`dmin = sqrt(d2min)`, applied only when `keepout_um > 0`) is expressed on
squared distances: for `keepout_um > 0`,
`sqrt(d2min) < keepout_um ↔ d2min < keepout_um ^ 2`. -/
def add_release_rows_at_seams_final_frame
    (ptsF : List (ℚ × ℚ))
    (plateBboxXyxy : ℚ × ℚ × ℚ × ℚ)
    (holes : HoleParams) (widths : WaveguideWidths)
    (straightTol : ℚ) (mxMargin myMargin : ℚ)
    (xRange yRange : Option (ℚ × ℚ)) : List (ℚ × ℚ) :=
  if ptsF.length < 2 then []
  else
    let xcs := xCenters ptsF straightTol
    if xcs.length < 2 then []
    else
      let xmin := plateBboxXyxy.1
      let ymin := plateBboxXyxy.2.1
      let xmax := plateBboxXyxy.2.2.1
      let ymax := plateBboxXyxy.2.2.2
      let x0m := xmin + mxMargin
      let x1m := xmax - mxMargin
      let y0m := ymin + myMargin
      let y1m := ymax - myMargin
      if x1m ≤ x0m ∨ y1m ≤ y0m then []
      else
        let xI := clipInterval x0m x1m xRange
        let yI := clipInterval y0m y1m yRange
        if xI.2 ≤ xI.1 ∨ yI.2 ≤ yI.1 then []
        else
          let seams := seamXs (npSort xcs) xI.1 xI.2
          if seams = [] then []
          else
            let ys := rowYs holes yI.1 yI.2
            if ys = [] then []
            else
              let ko := keepoutUm widths holes
              seams.flatMap (fun x =>
                ys.filterMap (fun y =>
                  if 0 < ko ∧ min_dist_sq_point_polyline x y ptsF < ko ^ 2
                  then none else some (x, y)))

/-- One element appended to the `gf.Path` by `serpentine_path_um`
(`geometry/serpentine.py` lines 53-59): either `gf.path.euler(radius, angle,
npoints)` or `gf.path.straight(length)`. -/
inductive PathElem
  | euler (radius : ℚ) (angle : ℤ) (npoints : ℤ)
  | straight (length : ℚ)
deriving DecidableEq, Repr

/-- The element sequence built by the loop of `serpentine_path_um`
(`geometry/serpentine.py` lines 53-59): for each `i < iterations`, a bend of
sense `a1`, a straight of the given length, and a bend of sense `a2`, where
`(a1, a2) = (+90, -90)` on even `i` and `(-90, +90)` on odd `i`. -/
def buildPath (iterations : ℕ) (r l : ℚ) (npts : ℤ) : List PathElem :=
  (List.range iterations).flatMap (fun i =>
    if i % 2 = 0 then
      [PathElem.euler r 90 npts, PathElem.straight l, PathElem.euler r (-90) npts]
    else
      [PathElem.euler r (-90) npts, PathElem.straight l, PathElem.euler r 90 npts])

/-- `serpentine_path_um` from `geometry/serpentine.py` lines 6-64.  The
four parameter validations and the band check raise `ValueError` in the
source (the spec's `InvalidConfiguration`), modelled by `Except.error`; they
all run before any path segment is built.  With a band constraint the bend
radius is clamped to `min(radius_um, max(1e-6, usable_H/2 - 1e-6))` where
`usable_H = band_height_um - 2*y_margin_um`.  The returned value is the
element sequence handed to the external `gf.Path`. -/
def serpentine_path_um (iterations : ℤ) (radius_um length_um : ℚ)
    (npts_per_bend : ℤ) (band_height_um : Option ℚ) (y_margin_um : ℚ) :
    Except String (List PathElem) :=
  if iterations < 1 then .error "iterations must be >= 1"
  else if radius_um ≤ 0 then .error "radius_um must be > 0"
  else if length_um < 0 then .error "length_um must be >= 0"
  else if npts_per_bend < 8 then .error "npts_per_bend must be >= 8"
  else
    match band_height_um with
    | none => .ok (buildPath iterations.toNat radius_um length_um npts_per_bend)
    | some b =>
        let usableH := b - 2 * y_margin_um
        if usableH ≤ 0 then
          .error "band_height_um minus 2*y_margin must be positive."
        else
          let maxR := max (1 / 1000000) (usableH / 2 - 1 / 1000000)
          let R := min radius_um maxR
          .ok (buildPath iterations.toNat R length_um npts_per_bend)

/-- Modelled from the spec: `quarter_turn_arc(r)`, the arclength of one 90°
bend of radius `r` (§8 of the spec; the spec's §3 describes the bends as
circular-arc quarter-turns, so this is `π r / 2`).  The bend primitive
itself, `gf.path.euler`, is an external collaborator not in this
repository. -/
noncomputable def quarter_turn_arc (r : ℚ) : ℝ := Real.pi * (r : ℝ) / 2

/-- Modelled from the spec: continuous arclength of one path element — a
bend of radius `r` and central angle `|angle|` degrees contributes a
circular-arc length, a straight contributes its length (the external
`gf.path` primitives provide these segments). -/
noncomputable def elemArclength : PathElem → ℝ
  | .euler r a _ => Real.pi * (r : ℝ) * |(a : ℝ)| / 180
  | .straight l => (l : ℝ)

/-- Total continuous arclength of a path element sequence. -/
noncomputable def totalArclength (es : List PathElem) : ℝ :=
  (es.map elemArclength).sum

/-- Heading after `h` quarter-turns from the +X axis, as a unit vector. -/
def dirOf (h : ℤ) : ℚ × ℚ :=
  if h % 4 = 0 then (1, 0)
  else if h % 4 = 1 then (0, 1)
  else if h % 4 = 2 then (-1, 0)
  else (0, -1)

/-- Modelled from the spec: the endpoint displacement of one path element.
A straight advances along the current heading.  A 90° circular-arc bend of
radius `r` from heading `u` to heading `v` (a quarter-turn left for positive
angle, right for negative) ends at `r·u + r·v` from its start; the heading
advances by one quarter-turn in the turn's sense.  State: (position,
quarter-turn count). -/
def stepElem (st : (ℚ × ℚ) × ℤ) : PathElem → ((ℚ × ℚ) × ℤ)
  | .straight l =>
      let d := dirOf st.2
      ((st.1.1 + l * d.1, st.1.2 + l * d.2), st.2)
  | .euler r a _ =>
      let s : ℤ := if 0 ≤ a then 1 else -1
      let u := dirOf st.2
      let v := dirOf (st.2 + s)
      ((st.1.1 + r * u.1 + r * v.1, st.1.2 + r * u.2 + r * v.2), st.2 + s)

/-- The element joints of a path element sequence, starting at the origin
heading +X (as `gf.Path` does). -/
def pathVertices (es : List PathElem) : List (ℚ × ℚ) :=
  (es.scanl stepElem ((0, 0), 0)).map Prod.fst

/-- Modelled from the spec: the vertical extent (bbox height) of the path.
Each 90° circular bend stays inside the axis-aligned bounding box of its two
endpoints, so the extent of the joint set equals the extent of the full
curve. -/
def yExtent (es : List PathElem) : ℚ :=
  match (pathVertices es).map Prod.snd with
  | [] => 0
  | y :: rest => rest.foldl max y - rest.foldl min y

/-- Euclidean length of one polyline segment (`np.sqrt(np.sum(np.diff ...))`
in `utils/geometry.py`). -/
noncomputable def seg_length (a b : ℚ × ℚ) : ℝ :=
  Real.sqrt (((b.1 - a.1 : ℚ) : ℝ) ^ 2 + ((b.2 - a.2 : ℚ) : ℝ) ^ 2)

/-- `path_length_um` from `utils/geometry.py` lines 15-28, for a path given
by its vertex array (`P.points`; the `P.length()` fast path queries the
external CAD library).  Fewer than `_POLY_MIN_COLS = 2` points give length
`0.0`; otherwise the chord lengths are summed. -/
noncomputable def path_length_um (pts : List (ℚ × ℚ)) : ℝ :=
  if pts.length < 2 then 0
  else ((pts.zip pts.tail).map (fun ab => seg_length ab.1 ab.2)).sum

/-- `np.interp(x, xp, fp)` for one scalar `x`, with the `(xp, fp)` pairs
zipped: clamp to the first/last value outside the table, linear
interpolation inside. -/
noncomputable def npInterp (x : ℝ) : List (ℝ × ℝ) → ℝ
  | [] => 0
  | [pa] => pa.2
  | pa :: pb :: rest =>
      if x ≤ pa.1 then pa.2
      else if x ≤ pb.1 then pa.2 + (pb.2 - pa.2) * (x - pa.1) / (pb.1 - pa.1)
      else npInterp x (pb :: rest)

/-- `sample_points_um` from `utils/geometry.py` lines 31-51, for a path
given by its vertex array (the `P.sample` fast path queries the external CAD
library): no points give an empty sample array; a single point is repeated
once per requested sample; otherwise each coordinate is interpolated over
the cumulative chord lengths (`np.interp` against
`s_cum = [0] ++ cumsum(segs)`). -/
noncomputable def sample_points_um (pts : List (ℚ × ℚ)) (sVals : List ℚ) :
    List (ℝ × ℝ) :=
  match pts with
  | [] => []
  | [p] => sVals.map (fun _ => ((p.1 : ℝ), (p.2 : ℝ)))
  | _ =>
      let segs := (pts.zip pts.tail).map (fun ab => seg_length ab.1 ab.2)
      let sCum := segs.scanl (fun acc v => acc + v) 0
      let xs := pts.map (fun p => ((p.1 : ℚ) : ℝ))
      let ys := pts.map (fun p => ((p.2 : ℚ) : ℝ))
      sVals.map (fun s =>
        (npInterp (s : ℝ) (sCum.zip xs), npInterp (s : ℝ) (sCum.zip ys)))

/-! ## Helper lemmas -/

section

/- Batteries marks the `Rat` arithmetic operations `@[irreducible]`, which
blocks `decide`-style evaluation during elaboration; restore the default
transparency locally so concrete rational computations reduce. -/
attribute [local semireducible] Rat.add Rat.sub Rat.mul Rat.inv Rat.ofScientific

lemma totalArclength_append (l1 l2 : List PathElem) :
    totalArclength (l1 ++ l2) = totalArclength l1 + totalArclength l2 := by
  simp [totalArclength]

lemma totalArclength_flatMap_const (f : ℕ → List PathElem) (c : ℝ)
    (hf : ∀ i, totalArclength (f i) = c) (n : ℕ) :
    totalArclength ((List.range n).flatMap f) = n * c := by
  induction n with
  | zero => simp [totalArclength]
  | succ n ih =>
      rw [List.range_succ, List.flatMap_append, totalArclength_append, ih]
      simp [hf n]
      ring

lemma totalArclength_motif (r L : ℚ) (k : ℤ) (i : ℕ) :
    totalArclength
      (if i % 2 = 0 then
        [PathElem.euler r 90 k, PathElem.straight L, PathElem.euler r (-90) k]
      else
        [PathElem.euler r (-90) k, PathElem.straight L, PathElem.euler r 90 k]) =
      2 * quarter_turn_arc r + (L : ℝ) := by
  by_cases h : i % 2 = 0 <;>
    simp [h, totalArclength, elemArclength, quarter_turn_arc] <;> ring

lemma totalArclength_buildPath (n : ℕ) (r L : ℚ) (k : ℤ) :
    totalArclength (buildPath n r L k) =
      (n : ℝ) * (2 * quarter_turn_arc r + (L : ℝ)) := by
  unfold buildPath
  exact totalArclength_flatMap_const _ _ (totalArclength_motif r L k) n

/-! ## Claim theorems: Path Synthesizer -/

/-- C5: `serpentine_path_um` fails with an `InvalidConfiguration` error
(a `ValueError` in the source), producing no path, exactly when
`iterations < 1`, or `radius_um ≤ 0`, or `length_um < 0`, or
`npts_per_bend < 8`, or a band constraint is supplied with
`band_height_um - 2 * y_margin_um ≤ 0`.  In the embedding the error is the
value returned before any path element is constructed, matching the
source's raise-before-build order. -/
theorem serpentine_invalid_configuration_iff (it : ℤ) (r L : ℚ) (k : ℤ)
    (band : Option ℚ) (m : ℚ) :
    (∃ e, serpentine_path_um it r L k band m = Except.error e) ↔
      (it < 1 ∨ r ≤ 0 ∨ L < 0 ∨ k < 8 ∨
        ∃ b, band = some b ∧ b - 2 * m ≤ 0) := by
  cases band with
  | none =>
      unfold serpentine_path_um
      split_ifs with h1 h2 h3 h4 <;> simp_all
  | some b =>
      unfold serpentine_path_um
      dsimp only
      split_ifs with h1 h2 h3 h4 h5 <;> simp_all

/-- Witness for C5: at `iterations = 0` the synthesizer rejects the
configuration. -/
theorem serpentine_invalid_configuration_iff_witness :
    ∃ e, serpentine_path_um 0 15 60 300 none 0 = Except.error e :=
  (serpentine_invalid_configuration_iff 0 15 60 300 none 0).mpr
    (Or.inl (by decide))

/-- C9: for valid inputs with no band constraint, the total arclength of the
synthesized path is `iterations * (2 * quarter_turn_arc(radius) + length)`;
in the continuous model of the external bend primitive the identity is
exact (the sampled polyline differs by bend-discretization error only). -/
theorem serpentine_total_arclength (it : ℤ) (r L : ℚ) (k : ℤ) (m : ℚ)
    (h1 : 1 ≤ it) (h2 : 0 < r) (h3 : 0 ≤ L) (h4 : 8 ≤ k) :
    serpentine_path_um it r L k none m =
      Except.ok (buildPath it.toNat r L k) ∧
    totalArclength (buildPath it.toNat r L k) =
      (it.toNat : ℝ) * (2 * quarter_turn_arc r + (L : ℝ)) := by
  constructor
  · unfold serpentine_path_um
    split_ifs with g1 g2 g3 g4
    · exact absurd g1 (by omega)
    · exact absurd h2 (not_lt.mpr g2)
    · exact absurd g3 (not_lt.mpr h3)
    · exact absurd g4 (by omega)
    · rfl
  · exact totalArclength_buildPath it.toNat r L k

/-- Witness for C9: the spec's concrete scenario
`iterations = 2, radius = 10, length = 50, samplesPerBend = 16`. -/
theorem serpentine_total_arclength_witness :
    (1 : ℤ) ≤ 2 ∧
    totalArclength (buildPath (2 : ℤ).toNat 10 50 16) =
      ((2 : ℤ).toNat : ℝ) * (2 * quarter_turn_arc 10 + (50 : ℝ)) :=
  ⟨by decide,
    (serpentine_total_arclength 2 10 50 16 0 (by decide) (by decide)
      (by decide) (by decide)).2⟩

/-- C6 is a code bug: at `iterations = 2, radius_um = 15, length_um = 60,
npts_per_bend = 300, band_height_um = 20, y_margin_um = 0` the source clamps
only the bend radius (to `min(15, 20/2 - 1e-6)`), but the vertical straights
of length 60 still contribute to the meander height, so the synthesized
path's Y-extent is `2R + 60 ≈ 80 > 20 = band_height_um`, contradicting the
source's own docstring ("we limit the meander height ... to fit inside
(band_height_um - 2*y_margin_um)") and its comment "the path's bbox height
will be ≈ 2*R". -/
theorem serpentine_band_clamp_violated :
    serpentine_path_um 2 15 60 300 (some 20) 0 =
      Except.ok (buildPath 2 (9999999 / 1000000) 60 300) ∧
    20 < yExtent (buildPath 2 (9999999 / 1000000) 60 300) := by
  exact ⟨by rfl, by decide⟩

/-! ## Claim theorems: Hole Placer -/

/-- C1: every hole center emitted by
`add_release_rows_at_seams_final_frame` lies at Euclidean distance at least
`keepoutUm = width_sin_um/2 + hole_diam_um/2 + avoid_clearance_um` from the
sampled centerline polyline; candidates closer than the threshold are
discarded by the `continue` of lines 205-208, never emitted. -/
theorem holes_respect_keepout (ptsF : List (ℚ × ℚ)) (bbox : ℚ × ℚ × ℚ × ℚ)
    (holes : HoleParams) (widths : WaveguideWidths)
    (tol mx my : ℚ) (xr yr : Option (ℚ × ℚ)) (c : ℚ × ℚ)
    (hc : c ∈ add_release_rows_at_seams_final_frame ptsF bbox holes widths
      tol mx my xr yr) :
    ((keepoutUm widths holes : ℚ) : ℝ) ≤
      Real.sqrt ((min_dist_sq_point_polyline c.1 c.2 ptsF : ℚ) : ℝ) := by
  unfold add_release_rows_at_seams_final_frame at hc
  dsimp only at hc
  split_ifs at hc <;> try exact absurd hc (List.not_mem_nil c)
  rw [List.mem_flatMap] at hc
  obtain ⟨x, hx, hy⟩ := hc
  rw [List.mem_filterMap] at hy
  obtain ⟨y, hyy, heq⟩ := hy
  by_cases hko : 0 < keepoutUm widths holes ∧
      min_dist_sq_point_polyline x y ptsF < keepoutUm widths holes ^ 2
  · rw [if_pos hko] at heq
    exact absurd heq (by simp)
  · rw [if_neg hko] at heq
    obtain rfl : (x, y) = c := by simpa using heq
    rcases le_or_lt (keepoutUm widths holes) 0 with hle | hpos
    · calc ((keepoutUm widths holes : ℚ) : ℝ) ≤ 0 := by exact_mod_cast hle
        _ ≤ _ := Real.sqrt_nonneg _
    · have h2 : keepoutUm widths holes ^ 2 ≤
          min_dist_sq_point_polyline x y ptsF := by
        by_contra hlt
        push_neg at hlt
        exact hko ⟨hpos, hlt⟩
      refine Real.le_sqrt_of_sq_le ?_
      exact_mod_cast h2

/-- Witness for C1: on a rectangular-U centerline with two vertical legs,
the left-edge hole at `(-8, 5)` is emitted and respects the keep-out. -/
theorem holes_respect_keepout_witness :
    ((-8, 5) ∈ add_release_rows_at_seams_final_frame
        [(0, 0), (0, 10), (5, 10), (5, 0)] (-10, -10, 15, 20)
        ⟨3, 3, 1 / 5, none, some 1⟩ ⟨2 / 5⟩ (3 / 50) 2 2 none none) ∧
    ((keepoutUm ⟨2 / 5⟩ ⟨3, 3, 1 / 5, none, some 1⟩ : ℚ) : ℝ) ≤
      Real.sqrt ((min_dist_sq_point_polyline (-8) 5
        [(0, 0), (0, 10), (5, 10), (5, 0)] : ℚ) : ℝ) :=
  ⟨by decide,
    holes_respect_keepout [(0, 0), (0, 10), (5, 10), (5, 0)]
      (-10, -10, 15, 20) ⟨3, 3, 1 / 5, none, some 1⟩ ⟨2 / 5⟩ (3 / 50) 2 2
      none none (-8, 5) (by decide)⟩

/-- C7: the placer returns normally with no holes (and the component is left
unchanged — the returned placement list is empty and nothing is appended)
whenever fewer than 2 vertical-run representatives are detected, or the
margin-shrunk, window-clipped plate rectangle is non-positive in either
dimension. -/
theorem empty_inputs_produce_no_holes (ptsF : List (ℚ × ℚ))
    (bbox : ℚ × ℚ × ℚ × ℚ) (holes : HoleParams) (widths : WaveguideWidths)
    (tol mx my : ℚ) (xr yr : Option (ℚ × ℚ))
    (h : (xCenters ptsF tol).length < 2 ∨
      (clipInterval (bbox.1 + mx) (bbox.2.2.1 - mx) xr).2 ≤
        (clipInterval (bbox.1 + mx) (bbox.2.2.1 - mx) xr).1 ∨
      (clipInterval (bbox.2.1 + my) (bbox.2.2.2 - my) yr).2 ≤
        (clipInterval (bbox.2.1 + my) (bbox.2.2.2 - my) yr).1) :
    add_release_rows_at_seams_final_frame ptsF bbox holes widths
      tol mx my xr yr = [] := by
  unfold add_release_rows_at_seams_final_frame
  dsimp only
  split_ifs with g1 g2 g3 g4 g5 g6 <;> try rfl
  exfalso
  rcases h with h | h | h
  · exact g2 h
  · exact g4 (Or.inl h)
  · exact g4 (Or.inr h)

/-- Witness for C7: a single vertical leg yields one representative X, so no
holes are placed. -/
theorem empty_inputs_produce_no_holes_witness :
    (xCenters [((0 : ℚ), (0 : ℚ)), (0, 10)] (3 / 50)).length < 2 ∧
    add_release_rows_at_seams_final_frame [((0 : ℚ), (0 : ℚ)), (0, 10)]
      (0, 0, 100, 50) ⟨3, 3, 1 / 5, none, some 1⟩ ⟨2 / 5⟩ (3 / 50) 5 5
      none none = [] :=
  ⟨by decide,
    empty_inputs_produce_no_holes [((0 : ℚ), (0 : ℚ)), (0, 10)]
      (0, 0, 100, 50) ⟨3, 3, 1 / 5, none, some 1⟩ ⟨2 / 5⟩ (3 / 50) 5 5
      none none (Or.inl (by decide))⟩

/-! ## Dedupe/sort lemmas for the seam-column set -/

lemma npSort_perm (vals : List ℚ) : List.Perm (npSort vals) vals :=
  List.perm_insertionSort _ vals

lemma npSort_sorted (vals : List ℚ) :
    (npSort vals).Pairwise (fun a b => a ≤ b) :=
  List.sorted_insertionSort _ vals

lemma dedupeKeep_subset (tol last : ℚ) (l : List ℚ) :
    dedupeKeep tol last l ⊆ l := by
  induction l generalizing last with
  | nil => simp [dedupeKeep]
  | cons v rest ih =>
      unfold dedupeKeep
      split_ifs with h
      · intro a ha
        rcases List.mem_cons.mp ha with rfl | ha
        · exact List.mem_cons_self _ _
        · exact List.mem_cons_of_mem _ (ih v ha)
      · exact fun a ha => List.mem_cons_of_mem _ (ih last ha)

lemma dedupeKeep_chain (tol last : ℚ) (l : List ℚ)
    (hle : ∀ x ∈ l, last ≤ x) (hsort : l.Pairwise (fun a b => a ≤ b)) :
    List.Chain' (fun a b => a + tol < b) (last :: dedupeKeep tol last l) := by
  induction l generalizing last with
  | nil => simp [dedupeKeep]
  | cons v rest ih =>
      have hlv : last ≤ v := hle v (List.mem_cons_self _ _)
      have hvrest : ∀ x ∈ rest, v ≤ x := (List.pairwise_cons.mp hsort).1
      have hrest : rest.Pairwise (fun a b => a ≤ b) :=
        (List.pairwise_cons.mp hsort).2
      unfold dedupeKeep
      split_ifs with h
      · refine List.chain'_cons.mpr ⟨?_, ih v hvrest hrest⟩
        have habs : |v - last| = v - last := abs_of_nonneg (by linarith)
        rw [habs] at h
        linarith
      · exact ih last (fun x hx => le_trans hlv (hvrest x hx)) hrest

lemma dedupe_sorted_subset (vals : List ℚ) (tol : ℚ) :
    _dedupe_sorted vals tol ⊆ vals := by
  intro a ha
  refine (npSort_perm vals).mem_iff.mp ?_
  unfold _dedupe_sorted at ha
  rcases hs : npSort vals with _ | ⟨v, rest⟩ <;> rw [hs] at ha
  · exact absurd ha (List.not_mem_nil a)
  · rcases List.mem_cons.mp ha with rfl | ha
    · exact List.mem_cons_self _ _
    · exact List.mem_cons_of_mem _ (dedupeKeep_subset tol _ rest ha)

lemma dedupe_sorted_chain (vals : List ℚ) (tol : ℚ) :
    List.Chain' (fun a b => a + tol < b) (_dedupe_sorted vals tol) := by
  unfold _dedupe_sorted
  rcases hs : npSort vals with _ | ⟨v, rest⟩
  · simp
  · have hsort : (v :: rest).Pairwise (fun a b => a ≤ b) := by
      rw [← hs]; exact npSort_sorted vals
    exact dedupeKeep_chain tol v rest (List.pairwise_cons.mp hsort).1
      (List.pairwise_cons.mp hsort).2

lemma chain_gap_sorted (tol : ℚ) (htol : 0 ≤ tol) (l : List ℚ)
    (h : List.Chain' (fun a b => a + tol < b) l) : l.Sorted (· < ·) := by
  have htrans : IsTrans ℚ (fun a b => a + tol < b) :=
    ⟨fun a b c hab hbc => by linarith⟩
  exact (List.chain'_iff_pairwise.mp h).imp (fun hab => by linarith)

/-! ## Claim theorems: seam columns -/

/-- C2: the seam-column list built by lines 161-165 consists only of the
left inner edge, the right inner edge, and midpoints of adjacent
representative X values, all restricted to the inner interval; and after
the `1e-3`-tolerance dedupe it is strictly ascending with consecutive
entries more than `1e-3` apart. -/
theorem seam_columns_structure (xcs : List ℚ) (x0 x1 : ℚ) :
    (∀ x ∈ seamXs xcs x0 x1,
      (x = x0 ∨ x = x1 ∨
        x ∈ (xcs.zip xcs.tail).map (fun ab => (1 / 2) * (ab.1 + ab.2))) ∧
      x0 ≤ x ∧ x ≤ x1) ∧
    (seamXs xcs x0 x1).Sorted (· < ·) ∧
    List.Chain' (fun a b => a + dedupTolUm < b) (seamXs xcs x0 x1) := by
  refine ⟨?_, ?_, ?_⟩
  · intro x hx
    unfold seamXs at hx
    have hsub := dedupe_sorted_subset _ dedupTolUm hx
    rw [List.mem_filter] at hsub
    obtain ⟨hcand, hbounds⟩ := hsub
    have hb : x0 ≤ x ∧ x ≤ x1 := by simpa using hbounds
    refine ⟨?_, hb⟩
    rcases List.mem_cons.mp hcand with rfl | hcand
    · exact Or.inl rfl
    rcases List.mem_append.mp hcand with hmid | hlast
    · exact Or.inr (Or.inr hmid)
    · simp only [List.mem_singleton] at hlast
      exact Or.inr (Or.inl hlast)
  · exact chain_gap_sorted _ (by norm_num [dedupTolUm]) _
      (dedupe_sorted_chain _ _)
  · exact dedupe_sorted_chain _ _

/-- Witness for C2: for representatives `[0, 5]` and inner edges
`[-8, 13]`, the kept column `5/2` is the midpoint and lies inside the
interval. -/
theorem seam_columns_structure_witness :
    ((5 : ℚ) / 2 = -8 ∨ (5 : ℚ) / 2 = 13 ∨
      (5 : ℚ) / 2 ∈ (([(0 : ℚ), 5].zip [(0 : ℚ), 5].tail).map
        (fun ab => (1 / 2) * (ab.1 + ab.2)))) ∧
    (-8 ≤ (5 : ℚ) / 2 ∧ (5 : ℚ) / 2 ≤ 13) :=
  (seam_columns_structure [0, 5] (-8) 13).1 (5 / 2) (by decide)

/-! ## Fixed-row lemmas -/

lemma rowsFixed_eval (y0 y1 : ℚ) (n : ℤ) (hn : 2 ≤ n) :
    rowsFixed y0 y1 n =
      (List.range n.toNat).map
        (fun i : ℕ => y0 + (y1 - y0) * ((i : ℚ) + 1) / ((n.toNat : ℚ) + 1)) := by
  unfold rowsFixed
  rw [if_neg (by omega), if_neg (by omega)]
  unfold linspaceQ
  rw [if_neg (by omega), if_neg (by omega)]
  apply List.ext_getElem
  · simp
  · intro i h1 h2
    simp only [List.getElem_dropLast, List.getElem_drop, List.getElem_map,
      List.getElem_range]
    push_cast
    ring

/-! ## Claim theorems: fixed row count -/

/-- C3: with an explicit row count `n = holes_per_col`, the rows are the `n`
interior points of the `n + 2`-point linspace between the inner edges:
`n = 0` gives no rows, `n = 1` the vertical center, and for `n ≥ 2` there
are exactly `n` rows, all strictly between the bottom and top inner
edges. -/
theorem fixed_rows_interior (y0 y1 : ℚ) (h : y0 < y1) (n : ℤ) :
    rowsFixed y0 y1 0 = [] ∧
    rowsFixed y0 y1 1 = [(y0 + y1) * (1 / 2)] ∧
    (2 ≤ n →
      rowsFixed y0 y1 n =
        ((linspaceQ y0 y1 (n.toNat + 2)).drop 1).dropLast ∧
      (rowsFixed y0 y1 n).length = n.toNat ∧
      ∀ y ∈ rowsFixed y0 y1 n, y0 < y ∧ y < y1) := by
  refine ⟨rfl, rfl, fun hn => ⟨?_, ?_, ?_⟩⟩
  · unfold rowsFixed
    rw [if_neg (by omega), if_neg (by omega)]
  · rw [rowsFixed_eval y0 y1 n hn]
    simp
  · intro y hy
    rw [rowsFixed_eval y0 y1 n hn] at hy
    rw [List.mem_map] at hy
    obtain ⟨i, hi, rfl⟩ := hy
    rw [List.mem_range] at hi
    have hd : 0 < y1 - y0 := by linarith
    have hN1 : (0 : ℚ) < (n.toNat : ℚ) + 1 := by positivity
    have hi1 : (0 : ℚ) < (i : ℚ) + 1 := by positivity
    have hiN : (i : ℚ) + 1 < (n.toNat : ℚ) + 1 := by
      have hic : (i : ℚ) < (n.toNat : ℚ) := by exact_mod_cast hi
      linarith
    constructor
    · have hpos : 0 < (y1 - y0) * ((i : ℚ) + 1) / ((n.toNat : ℚ) + 1) :=
        div_pos (mul_pos hd hi1) hN1
      linarith
    · have h2 : (y1 - y0) * ((i : ℚ) + 1) / ((n.toNat : ℚ) + 1) < y1 - y0 := by
        rw [div_lt_iff₀ hN1]
        exact (mul_lt_mul_left hd).mpr hiN
      linarith

/-- Witness for C3: three rows between edges `0` and `10` are `5/2, 5,
15/2`; the middle one is strictly interior. -/
theorem fixed_rows_interior_witness :
    (0 : ℚ) < 10 ∧ (2 : ℤ) ≤ 3 ∧ (5 : ℚ) ∈ rowsFixed 0 10 3 ∧
    ((0 : ℚ) < 5 ∧ (5 : ℚ) < 10) :=
  ⟨by decide, by decide, by decide,
    ((fixed_rows_interior 0 10 (by decide) 3).2.2 (by decide)).2.2 5
      (by decide)⟩

/-! ## Pitch-row lemmas -/

lemma chain_arith_map (p : ℚ) (n : ℕ) :
    ∀ s : ℚ, List.Chain' (fun a b => b = a + p)
      ((List.range n).map (fun i : ℕ => s + (i : ℚ) * p)) := by
  induction n with
  | zero => intro s; simp
  | succ n ih =>
      intro s
      rw [List.range_succ_eq_map]
      simp only [List.map_cons, List.map_map]
      rw [List.chain'_cons']
      constructor
      · intro z hz
        rcases n with _ | m
        · simp at hz
        · rw [List.range_succ_eq_map] at hz
          simp only [List.map_cons, List.head?_cons, Option.mem_def,
            Option.some_inj] at hz
          subst hz
          simp only [Function.comp_apply]
          norm_num
      · have hrw : (List.range n).map ((fun i : ℕ => s + (i : ℚ) * p) ∘
            Nat.succ) =
            (List.range n).map (fun i : ℕ => (s + p) + (i : ℚ) * p) := by
          apply List.map_congr_left
          intro a _
          simp only [Function.comp_apply]
          push_cast
          ring
        rw [hrw]
        exact ih (s + p)

lemma arangeQ_mem_lt (s e p : ℚ) (hp : 0 < p) (y : ℚ)
    (hy : y ∈ arangeQ s e p) : y < e := by
  unfold arangeQ at hy
  rw [List.mem_map] at hy
  obtain ⟨i, hi, rfl⟩ := hy
  rw [List.mem_range] at hi
  have h1 : (i : ℤ) < ⌈(e - s) / p⌉ := by
    rcases le_or_lt ⌈(e - s) / p⌉ 0 with hle | hpos
    · omega
    · exact_mod_cast Int.lt_toNat.mp hi
  have h2 : (i : ℚ) < (e - s) / p := by
    have := Int.lt_ceil.mp h1
    exact_mod_cast this
  have h3 : (i : ℚ) * p < e - s := by
    rw [← lt_div_iff₀ hp]
    exact h2
  linarith

/-! ## Claim theorems: pitch-based rows -/

/-- Counterexample to C4 as stated: with inner edges `0, 10` and pitch `3`,
the rows are `3/2, 9/2, 15/2`; the bottom gap is `3/2` but the top gap is
`10 - 15/2 = 5/2`, so the grid is not centered within the span and its last
row is not half a pitch in from the top edge. -/
theorem pitch_rows_not_centered :
    rowsPitch 0 10 3 = [3 / 2, 9 / 2, 15 / 2] ∧
    ¬((3 : ℚ) / 2 - 0 = 10 - 15 / 2) :=
  ⟨by decide, by decide⟩

/-- C4 amended: for pitch `p > 0`, when the span is at least one pitch the
rows form an arithmetic grid anchored at the bottom: the first row is
exactly half a pitch above the bottom inner edge, consecutive rows are
exactly `p` apart, and every row lies below `y1 - p/2 + 1e-9`; the grid is
anchored at the bottom edge, not centered (the top gap may exceed the
bottom gap by up to one pitch).  When the span is smaller than one pitch,
exactly one row at the vertical center is produced. -/
theorem pitch_rows_amended (y0 y1 p : ℚ) (hp : 0 < p) :
    (y1 - y0 < p → rowsPitch y0 y1 p = [(y0 + y1) * (1 / 2)]) ∧
    (p ≤ y1 - y0 →
      rowsPitch y0 y1 p ≠ [] ∧
      (rowsPitch y0 y1 p).head? = some (y0 + (1 / 2) * p) ∧
      List.Chain' (fun a b => b = a + p) (rowsPitch y0 y1 p) ∧
      ∀ y ∈ rowsPitch y0 y1 p, y < y1 - (1 / 2) * p + numEps) := by
  have hnum : (0 : ℚ) < numEps := by norm_num [numEps]
  constructor
  · intro hspan
    unfold rowsPitch
    rw [if_pos (by linarith)]
  · intro hspan
    have hcond : ¬ (y1 - (1 / 2) * p < y0 + (1 / 2) * p) := by linarith
    have hceil : 0 < ⌈(y1 - (1 / 2) * p + numEps - (y0 + (1 / 2) * p)) / p⌉ :=
      Int.ceil_pos.mpr (div_pos (by linarith) hp)
    refine ⟨?_, ?_, ?_, ?_⟩
    · unfold rowsPitch
      rw [if_neg hcond]
      unfold arangeQ
      simp only [ne_eq, List.map_eq_nil_iff, List.range_eq_nil]
      omega
    · unfold rowsPitch
      rw [if_neg hcond]
      unfold arangeQ
      obtain ⟨m, hm⟩ : ∃ m, ⌈(y1 - (1 / 2) * p + numEps -
          (y0 + (1 / 2) * p)) / p⌉.toNat = m + 1 := by
        refine ⟨⌈(y1 - (1 / 2) * p + numEps - (y0 + (1 / 2) * p)) / p⌉.toNat
          - 1, by omega⟩
      rw [hm, List.range_succ_eq_map]
      simp
    · unfold rowsPitch
      rw [if_neg hcond]
      exact chain_arith_map p _ _
    · intro y hy
      unfold rowsPitch at hy
      rw [if_neg hcond] at hy
      have := arangeQ_mem_lt (y0 + (1 / 2) * p)
        (y1 - (1 / 2) * p + numEps) p hp y hy
      linarith

/-- Witness for the amended C4: edges `0, 10`, pitch `3`: the first row sits
at `3/2`, half a pitch above the bottom edge. -/
theorem pitch_rows_amended_witness :
    (0 : ℚ) < 3 ∧ (3 : ℚ) ≤ 10 - 0 ∧
    (rowsPitch 0 10 3).head? = some (0 + (1 / 2) * 3) :=
  ⟨by decide, by decide,
    (((pitch_rows_amended 0 10 3 (by decide)).2 (by decide)).2.1)⟩

/-! ## Claim theorems: Sampler safety and row fallback -/

/-- C8: a degenerate path (fewer than 2 vertices) has length `0`, and
sampling a single-vertex path never fails: it returns that point once per
requested sample position. -/
theorem degenerate_path_handling (pts : List (ℚ × ℚ)) (h : pts.length < 2)
    (p : ℚ × ℚ) (sVals : List ℚ) :
    path_length_um pts = 0 ∧
    sample_points_um [p] sVals =
      sVals.map (fun _ => ((p.1 : ℝ), (p.2 : ℝ))) ∧
    (sample_points_um [p] sVals).length = sVals.length := by
  refine ⟨?_, rfl, ?_⟩
  · rw [path_length_um, if_pos h]
  · simp [sample_points_um]

/-- Witness for C8: a one-point path has length `0` and sampling it at three
positions returns three copies of the point. -/
theorem degenerate_path_handling_witness :
    ([((3 : ℚ), (4 : ℚ))].length < 2) ∧
    path_length_um [((3 : ℚ), (4 : ℚ))] = 0 ∧
    sample_points_um [((3 : ℚ), (4 : ℚ))] [0, 1, 2] =
      [0, 1, 2].map (fun _ => ((3 : ℝ), (4 : ℝ))) :=
  ⟨by decide,
    (degenerate_path_handling [((3 : ℚ), (4 : ℚ))] (by decide) (3, 4)
      [0, 1, 2]).1,
    (degenerate_path_handling [((3 : ℚ), (4 : ℚ))] (by decide) (3, 4)
      [0, 1, 2]).2.1⟩

/-- C10: with no explicit row count and no positive pitch
(`holes_per_col = None`, `hole_pitch_y_um` absent or `0`, and
`hole_pitch_um = 0`), the placer does not fail: the row dispatch of lines
179-190 returns exactly one row at the vertical center of the inner
rectangle, the same fallback used when the span is smaller than one
pitch. -/
theorem no_pitch_single_center_row (holes : HoleParams) (y0 y1 : ℚ)
    (hcol : holes.holes_per_col = none)
    (hpy : holes.hole_pitch_y_um = none ∨ holes.hole_pitch_y_um = some 0)
    (hpu : holes.hole_pitch_um = 0) :
    rowYs holes y0 y1 = [(y0 + y1) * (1 / 2)] := by
  have hp : effectivePitchY holes = 0 := by
    rcases hpy with hpy | hpy <;> simp [effectivePitchY, hpy, hpu]
  simp [rowYs, hcol, hp]

/-- Witness for C10: a parameter set with no row count and zero pitches
yields the single centered row. -/
theorem no_pitch_single_center_row_witness :
    (⟨3, 0, 1 / 5, none, none⟩ : HoleParams).holes_per_col = none ∧
    (⟨3, 0, 1 / 5, none, none⟩ : HoleParams).hole_pitch_um = 0 ∧
    rowYs ⟨3, 0, 1 / 5, none, none⟩ 0 10 = [(0 + 10) * (1 / 2)] :=
  ⟨rfl, rfl,
    no_pitch_single_center_row ⟨3, 0, 1 / 5, none, none⟩ 0 10 rfl
      (Or.inl rfl) rfl⟩

end

end PiezoPic
